import Mathlib

/-!
# Verification of the decoding/search core of `pytorch_end2end_speech_recognition`

This file gives a shallow embedding of the two decoders of the repository and
proves/refutes the frozen claims about them.

## Embedded source

* `src/models/pytorch/ctc/decoders/beam_search_decoder.py`
  (`BeamSearchDecoder.__call__`, the CTC prefix beam search), and
* `src/models/pytorch/attention/attention_seq2seq.py`
  (`AttentionSeq2seq.decode` / `_decode_infer_beam`, the attention beam search).

## Modelling conventions

The Python CTC decoder works in log space with `np.logaddexp`, `LOG_0 = -inf`,
`LOG_1 = 0`.  The map `exp : [-inf, +inf) → [0, +inf)` is a strictly monotone
bijection under which `logaddexp` becomes `+`, adding a log probability
(`x + p_t`) becomes `*`, `LOG_0` becomes `0`, `LOG_1` becomes `1`, and the sort
key `logaddexp(p_b, p_nb)` becomes `p_b + p_nb`.  We embed the decoder in this
linear domain over `ℚ` (the algorithm only uses `+`, `*`, `0`, `1` and order
comparisons — never division — so the exact rationals are a faithful and
executable stand-in for the idealized reals; the floating-point representation
itself is out of scope).  Every control-flow decision of the source is
preserved exactly.

`sorted(..., reverse=True)` in Python is a stable descending sort; it is
embedded as `List.insertionSort` with the relation `key b ≤ key a`, which is
the same stable algorithm (an earlier element stays before a later element
with an equal key).  A Python `defaultdict` (whose iteration order is key
insertion order) is embedded as an association list where updating an existing
key keeps its position and a new key is appended at the end.

The attention beam search is driven by network layers (`attend_*`,
`decoder_*`, `fc_*`, `embed_*`) that the specification declares out of scope;
they are abstracted into a single `step` parameter, exactly as the spec's STEP
capability.  Scores on that path live in plain log units (only `+` and
comparisons are ever applied to them), so they are ordinary rationals.
-/

/-! ## Generic stable descending sort (Python `sorted(key=…, reverse=True)`) -/

/-- The descending comparison used by `sorted(..., reverse=True)`:
`a` may stay before `b` iff `key b ≤ key a`. -/
def keyedDesc {α : Type} (key : α → ℚ) : α → α → Prop := fun a b => key b ≤ key a

instance keyedDesc.decidableRel {α : Type} (key : α → ℚ) :
    DecidableRel (keyedDesc key) := fun a b => by unfold keyedDesc; infer_instance

/-- Stable descending sort by a rational key: the embedding of Python's
`sorted(items, key=…, reverse=True)`. -/
def sortDesc {α : Type} (key : α → ℚ) (l : List α) : List α :=
  l.insertionSort (keyedDesc key)

/-! ## CTC prefix beam search decoder

Embedding of `BeamSearchDecoder` in
`src/models/pytorch/ctc/decoders/beam_search_decoder.py` (linear domain,
see the header).  A beam element is `(prefix, (p_blank, p_nonblank))`. -/

/-- A CTC prefix: candidate collapsed label sequence. -/
abbrev CtcPref := List ℕ

/-- A beam element `(prefix, (p_blank, p_nonblank))` (line 54 of the source). -/
abbrev CtcEntry := CtcPref × ℚ × ℚ

/-- The `next_beam` default dictionary: an insertion-ordered association list. -/
abbrev CtcNextBeam := List CtcEntry

/-- Lookup with the defaultdict default `(LOG_0, LOG_0)`, i.e. `(0, 0)` in the
linear domain (`_make_new_beam`, lines 17-19). -/
def alGet (nb : CtcNextBeam) (k : CtcPref) : ℚ × ℚ :=
  match nb with
  | [] => (0, 0)
  | e :: es => if e.1 = k then e.2 else alGet es k

/-- Dictionary write: an existing key is updated in place, a new key is
appended at the end (Python dict insertion-order semantics). -/
def alSet (nb : CtcNextBeam) (k : CtcPref) (v : ℚ × ℚ) : CtcNextBeam :=
  match nb with
  | [] => [(k, v)]
  | e :: es => if e.1 = k then (k, v) :: es else e :: alSet es k v

/-- `l[-1] if l else None` (line 87 of the source). -/
def lastOf {α : Type} : List α → Option α
  | [] => none
  | [a] => some a
  | _ :: b :: rest => lastOf (b :: rest)

/-- The ranking key of a beam element: `logaddexp(p_b, p_nb)`, i.e.
`p_b + p_nb` in the linear domain (line 117). -/
def ctcScore (e : CtcEntry) : ℚ := e.2.1 + e.2.2

/-- One execution of the inner loop body of `BeamSearchDecoder.__call__`
(lines 72-112): process class `c` with probability `pt c` against one beam
element `e`, accumulating into the next-beam dictionary `nb`.

* `c = blank` (lines 76-82): the same prefix's `p_blank` receives
  `logaddexp(p_b, p_nb) + p_t`, i.e. `(p_b + p_nb) * pt c`.
* `c ≠ blank` (lines 84-102): the extended prefix `pfx ++ [c]` receives into
  `p_nonblank` either `(p_b + p_nb) * pt c` (new character) or `p_b * pt c`
  (repeated character, lines 94-100).
* repeated character (lines 106-112): additionally the unchanged prefix's
  `p_nonblank` receives `p_nb * pt c` (the merging case). -/
def ctcProcess (blank : ℕ) (pt : ℕ → ℚ) (c : ℕ) (nb : CtcNextBeam) (e : CtcEntry) :
    CtcNextBeam :=
  let pfx := e.1
  let pb := e.2.1
  let pnb := e.2.2
  let ptc := pt c
  if c = blank then
    let old := alGet nb pfx
    alSet nb pfx (old.1 + (pb + pnb) * ptc, old.2)
  else
    let newPfx := pfx ++ [c]
    let old := alGet nb newPfx
    let newPnb := if lastOf pfx = some c then old.2 + pb * ptc
                  else old.2 + (pb + pnb) * ptc
    let nb1 := alSet nb newPfx (old.1, newPnb)
    if lastOf pfx = some c then
      let old2 := alGet nb1 pfx
      alSet nb1 pfx (old2.1, old2.2 + pnb * ptc)
    else nb1

/-- The inner `for prefix, (p_b, p_nb) in beam` loop for one class `c`. -/
def ctcClassFold (blank : ℕ) (pt : ℕ → ℚ) (c : ℕ) (beam : List CtcEntry)
    (nb : CtcNextBeam) : CtcNextBeam :=
  beam.foldl (ctcProcess blank pt c) nb

/-- The `for c in range(num_classes)` loop building `next_beam` for one
timestep (lines 64-112); `pt` is the row `log_probs[b, t, ·]`. -/
def ctcNextBeam (blank numClasses : ℕ) (pt : ℕ → ℚ) (beam : List CtcEntry) :
    CtcNextBeam :=
  (List.range numClasses).foldl (fun nb c => ctcClassFold blank pt c beam nb) []

/-- Sort the candidates by combined score, descending and stable, and keep the
top `beamWidth` (lines 114-119). -/
def ctcTrim (beamWidth : ℕ) (nb : CtcNextBeam) : List CtcEntry :=
  (sortDesc ctcScore nb).take beamWidth

/-- The initial beam: the empty sequence with probability 1 of ending in blank
and 0 of ending in non-blank (line 58). -/
def ctcInit : List CtcEntry := [([], 1, 0)]

/-- The full time loop for one utterance (lines 58-119): `rows` is the list of
the `time = x_lens[b]` used rows of the probability matrix. -/
def ctcRun (blank numClasses : ℕ) (rows : List (ℕ → ℚ)) (beamWidth : ℕ) :
    List CtcEntry :=
  rows.foldl (fun beam pt => ctcTrim beamWidth (ctcNextBeam blank numClasses pt beam))
    ctcInit

/-- Per-utterance decode result `best_hyp = beam[0][0]` (line 121); `none`
models the `IndexError` raised when the final beam is empty. -/
def ctcDecodeU (blank numClasses : ℕ) (rows : List (ℕ → ℚ)) (beamWidth : ℕ) :
    Option CtcPref :=
  (ctcRun blank numClasses rows beamWidth).head?.map (fun e => e.1)

/-- Combined score of the top-ranked element of the final beam. -/
def ctcTopScore (blank numClasses : ℕ) (rows : List (ℕ → ℚ)) (beamWidth : ℕ) :
    Option ℚ :=
  (ctcRun blank numClasses rows beamWidth).head?.map ctcScore

/-- The batched entry point `BeamSearchDecoder.__call__(log_probs, x_lens,
beam_width, alpha, beta)` (lines 33-124): each utterance `b` is decoded on its
first `x_lens[b]` rows.  The `alpha` (language model weight) and `beta`
(insertion bonus) arguments appear in the signature but are never read by the
body (the LM hook is only a `TODO` comment at line 104). -/
def beamSearchDecoderCall (blank numClasses : ℕ) (logProbs : List (List (ℕ → ℚ)))
    (xLens : List ℕ) (beamWidth : ℕ) (alpha beta : ℚ) :
    Option (List CtcPref) :=
  (logProbs.zip xLens).mapM (fun p => ctcDecodeU blank numClasses (p.1.take p.2) beamWidth)

/-! ### Claim-following variants of the CTC decoder (for refutation)

These definitions follow the *specification's words* where they differ from
the source; they exist only to be compared with the faithful embedding. -/

/-- Variant of `ctcProcess` following claim C1's words: in the repeat case the
*unchanged* prefix's `p_nonblank` is updated from `p_blank_prev + p_t(c)` only
(the source, lines 108-112, uses `p_nb + p_t`, i.e. `pnb * ptc`). -/
def ctcProcessSpecC1 (blank : ℕ) (pt : ℕ → ℚ) (c : ℕ) (nb : CtcNextBeam)
    (e : CtcEntry) : CtcNextBeam :=
  let pfx := e.1
  let pb := e.2.1
  let pnb := e.2.2
  let ptc := pt c
  if c = blank then
    let old := alGet nb pfx
    alSet nb pfx (old.1 + (pb + pnb) * ptc, old.2)
  else
    let newPfx := pfx ++ [c]
    let old := alGet nb newPfx
    let newPnb := if lastOf pfx = some c then old.2 + pb * ptc
                  else old.2 + (pb + pnb) * ptc
    let nb1 := alSet nb newPfx (old.1, newPnb)
    if lastOf pfx = some c then
      let old2 := alGet nb1 pfx
      alSet nb1 pfx (old2.1, old2.2 + pb * ptc)
    else nb1

/-- Full decode built on `ctcProcessSpecC1` instead of `ctcProcess`. -/
def ctcDecodeSpecC1U (blank numClasses : ℕ) (rows : List (ℕ → ℚ))
    (beamWidth : ℕ) : Option CtcPref :=
  (rows.foldl
      (fun beam pt =>
        ctcTrim beamWidth
          ((List.range numClasses).foldl
            (fun nb c => beam.foldl (ctcProcessSpecC1 blank pt c) nb) []))
      ctcInit).head?.map (fun e => e.1)

/-- Claim C9's terminal-step rule, following the spec's words: return the
highest-scoring prefix among the final beam elements *excluding* the empty
prefix.  (The source, line 121, returns `beam[0][0]` with no exclusion.) -/
def ctcDecodeSpecC9U (blank numClasses : ℕ) (rows : List (ℕ → ℚ))
    (beamWidth : ℕ) : Option CtcPref :=
  ((sortDesc ctcScore
      ((ctcRun blank numClasses rows beamWidth).filter (fun e => ¬ e.1 = []))).head?).map
    (fun e => e.1)

/-- A concrete probability row from a list of rationals. -/
def rowOf (l : List ℚ) : ℕ → ℚ := fun c => l.getD c 0

/-! ### Concrete inputs for the counterexamples and witnesses (CTC)

Each matrix is the linear-domain image of a log-probability matrix (rows may
be rescaled by a positive constant, which leaves every comparison made by the
algorithm unchanged because all masses at a fixed timestep are homogeneous of
the same degree in the row entries). -/

/-- C1 matrix: `T = 2`, classes `{blank = 0, a = 1, b = 2}`;
favors `a` at `t = 0`, then `(0.2, 0.4, 0.3)`. -/
def rowsC1 : List (ℕ → ℚ) :=
  [rowOf [1/20, 9/10, 1/20], rowOf [2/10, 4/10, 3/10]]

/-- C6 matrix: `T = 3`, classes `{blank = 0, a = 1, b = 2}`. -/
def rowsC6 : List (ℕ → ℚ) :=
  [rowOf [1/2, 1/4, 1/4], rowOf [1/4, 1, 1/4], rowOf [1/4, 3/4, 1/4]]

/-- C8 matrix: `T = 3`, strongly `a`, then blank, then `a`. -/
def rowsC8 : List (ℕ → ℚ) :=
  [rowOf [1/20, 9/10, 1/20], rowOf [9/10, 1/20, 1/20], rowOf [1/20, 9/10, 1/20]]

/-- C9 matrix: `T = 1`, two classes, blank dominant. -/
def rowsC9 : List (ℕ → ℚ) := [rowOf [9/10, 1/10]]

/-- C5 matrix: `T = 1`, two classes; used with the out-of-range blank index 5. -/
def rowsC5 : List (ℕ → ℚ) := [rowOf [1/2, 1/2]]

/-! ## Attention beam search decoder

Embedding of `AttentionSeq2seq._decode_infer_beam` (lines 1038-1208 of
`src/models/pytorch/attention/attention_seq2seq.py`) and the dispatching
`AttentionSeq2seq.decode` (lines 860-906).  The network layers (`attend_*`,
`decoder_*`, `fc_*`, `embed_*` and `log_softmax`) are out of scope per the
specification and are abstracted into one `step` function: given a
hypothesis's decoder state, decoder output, last attention weights and last
emitted symbol, it returns the per-class log probabilities and the new
decoder state / decoder output / attention weights.  This is the
`attend_update_generate` decoding-order branch (lines 1092-1110), in which
one `step` per live hypothesis feeds all of its `beam_width` candidate
extensions (lines 1143-1159).  Scores are plain log-domain rationals; only
`+` and order comparisons are applied to them. -/

/-- Result of one externally-supplied STEP call. -/
structure AttnStepOut (S DO AW : Type) where
  logProbs : ℕ → ℚ
  decState : S
  decOut : DO
  awStep : AW

/-- One beam hypothesis: the dictionary built at lines 1072-1076 and 1154-1159
(`hyp`, `score`, `dec_state`, `dec_out`, `aw_steps`). -/
structure AttnHyp (S DO AW : Type) where
  hyp : List ℕ
  score : ℚ
  decState : S
  decOut : DO
  awSteps : List AW

/-- `l[-1]` with a default for the (unreachable) empty case. -/
def lastD {α : Type} (l : List α) (d : α) : α := (lastOf l).getD d

/-- `log_probs.topk(beam_width, largest=True, sorted=True)` (lines 1140-1141):
the `k` largest classes with their log probabilities, sorted descending,
ties broken by the smaller class index. -/
def attnTopk (numClasses k : ℕ) (lp : ℕ → ℚ) : List (ℕ × ℚ) :=
  (sortDesc (fun p => p.2) ((List.range numClasses).map (fun c => (c, lp c)))).take k

/-- Expansion of one live hypothesis (lines 1092-1159): one STEP call, then one
new beam entry per top-`k` class.  Every new entry stores the STEP's returned
decoder state (`copy.deepcopy(dec_state)` at line 1157 — a value copy, which
is what a pure embedding expresses directly; the aliasing discipline itself is
modelled separately by `HeapModel` below). -/
def attnExpand {S DO AW : Type} (step : S → DO → AW → ℕ → AttnStepOut S DO AW)
    (numClasses w sos : ℕ) (aw0 : AW) (h : AttnHyp S DO AW) :
    List (AttnHyp S DO AW) :=
  let out := step h.decState h.decOut (lastD h.awSteps aw0) (lastD h.hyp sos)
  (attnTopk numClasses w out.logProbs).map (fun p =>
    { hyp := h.hyp ++ [p.1]
      score := h.score + p.2
      decState := out.decState
      decOut := out.decOut
      awSteps := h.awSteps ++ [out.awStep] })

/-- The `for i_beam in range(len(beam))` loop building `new_beam`
(lines 1078-1159), in beam order. -/
def attnStepAll {S DO AW : Type} (step : S → DO → AW → ℕ → AttnStepOut S DO AW)
    (numClasses w sos : ℕ) (aw0 : AW) (beam : List (AttnHyp S DO AW)) :
    List (AttnHyp S DO AW) :=
  (beam.map (attnExpand step numClasses w sos aw0)).flatten

/-- The `for t in range(max_decode_len)` loop (lines 1077-1174): sort the
candidates, move completed hypotheses (last symbol = `eos`) of the top
`beam_width` into the completed set, break early once it holds `beam_width`
hypotheses.  Returns the final `(beam, complete)` pair. -/
def attnLoop {S DO AW : Type} (step : S → DO → AW → ℕ → AttnStepOut S DO AW)
    (numClasses w sos eos : ℕ) (aw0 : AW) :
    ℕ → List (AttnHyp S DO AW) → List (AttnHyp S DO AW) →
    List (AttnHyp S DO AW) × List (AttnHyp S DO AW)
  | 0, beam, complete => (beam, complete)
  | fuel + 1, beam, complete =>
    let top := (sortDesc (fun h => h.score) (attnStepAll step numClasses w sos aw0 beam)).take w
    let newComplete := complete ++ top.filter (fun h => lastD h.hyp sos = eos)
    let notComplete := top.filter (fun h => ¬ lastD h.hyp sos = eos)
    if w ≤ newComplete.length then (beam, newComplete.take w)
    else attnLoop step numClasses w sos eos aw0 fuel (notComplete.take w) newComplete

/-- Lines 1176-1177: if nothing ever completed, the live beam becomes the
completed set. -/
def attnCompleteFinal {S DO AW : Type} (step : S → DO → AW → ℕ → AttnStepOut S DO AW)
    (numClasses w mdl sos eos : ℕ) (aw0 : AW) (s0 : S) (do0 : DO) :
    List (AttnHyp S DO AW) :=
  let res := attnLoop step numClasses w sos eos aw0 mdl
      [{ hyp := [sos], score := 0, decState := s0, decOut := do0, awSteps := [aw0] }] []
  if res.2.isEmpty then res.1 else res.2

/-- Lines 1179-1183: the length renormalization
`score += len(hyp) * length_penalty`, applied only when `length_penalty > 0`;
note that `len(hyp)` counts the START symbol (and the terminal END symbol of a
completed hypothesis). -/
def attnAdjust {S DO AW : Type} (lengthPenalty : ℚ) (l : List (AttnHyp S DO AW)) :
    List (AttnHyp S DO AW) :=
  if 0 < lengthPenalty then
    l.map (fun h => { h with score := h.score + (h.hyp.length : ℚ) * lengthPenalty })
  else l

/-- Lines 1179-1186: length renormalization followed by the final descending
sort of the completed set. -/
def attnFinalize {S DO AW : Type} (lengthPenalty : ℚ)
    (complete : List (AttnHyp S DO AW)) : List (AttnHyp S DO AW) :=
  sortDesc (fun h => h.score) (attnAdjust lengthPenalty complete)

/-- Per-utterance beam search and selection (lines 1063-1189): the returned
pair is `complete[0]['hyp'][1:]` (the START symbol excluded, line 1187) and
`complete[0]['aw_steps'][1:]` (the initial attention weights excluded,
lines 1192-1194).  `none` models the `IndexError` on an empty completed set.
The subsequent stacking of the per-utterance trace (line 1200) is modelled
separately by `attnStackTrace` / `attnDecodeUFull`. -/
def attnDecodeU {S DO AW : Type} (step : S → DO → AW → ℕ → AttnStepOut S DO AW)
    (numClasses w mdl sos eos : ℕ) (lengthPenalty : ℚ) (aw0 : AW) (s0 : S) (do0 : DO) :
    Option (List ℕ × List AW) :=
  (attnFinalize lengthPenalty
      (attnCompleteFinal step numClasses w mdl sos eos aw0 s0 do0)).head?.map
    (fun best => (best.hyp.drop 1, best.awSteps.drop 1))

/-- The per-utterance trace assembly
`aw[j] = self.tensor2np(torch.stack(aw[j], dim=1).squeeze(0))` at line 1200,
applied to the already-truncated trace `aw[j][1:]`: `torch.stack` raises a
`RuntimeError` on an empty tensor list (`none`); otherwise the stacked trace
carries the same per-step weights. -/
def attnStackTrace {AW : Type} (tr : List AW) : Option (List AW) :=
  match tr with
  | [] => none
  | t :: ts => some (t :: ts)

/-- The full per-utterance pipeline of `_decode_infer_beam`: the search and
selection of lines 1063-1189 followed by the trace assembly of
lines 1192-1200. -/
def attnDecodeUFull {S DO AW : Type} (step : S → DO → AW → ℕ → AttnStepOut S DO AW)
    (numClasses w mdl sos eos : ℕ) (lengthPenalty : ℚ) (aw0 : AW) (s0 : S) (do0 : DO) :
    Option (List ℕ × List AW) :=
  match attnDecodeU step numClasses w mdl sos eos lengthPenalty aw0 s0 do0 with
  | none => none
  | some p =>
    match attnStackTrace p.2 with
    | none => none
    | some tr => some (p.1, tr)

/-- Decoding direction (`dir` at line 889). -/
inductive AttnDir : Type
  | fwd : AttnDir
  | bwd : AttnDir
deriving DecidableEq

/-- `AttentionSeq2seq._decode_infer_beam` at batch level (lines 1038-1208):
the entry `assert bwd_weight > 0` for the backward direction (lines
1055-1056), the per-utterance searches, and the terminal
`raise NotImplementedError` (lines 1202-1204) reached in the backward
direction before anything is returned. -/
def decodeInferBeam {S DO AW : Type} (step : S → DO → AW → ℕ → AttnStepOut S DO AW)
    (bwdWeight : ℚ) (dir : AttnDir) (numClasses w mdl sos eos : ℕ)
    (lengthPenalty : ℚ) (inits : List (AW × S × DO)) :
    Except String (List (Option (List ℕ × List AW))) :=
  if dir = AttnDir.bwd ∧ bwdWeight ≤ 0 then Except.error "AssertionError"
  else
    let results := inits.map (fun i =>
      attnDecodeUFull step numClasses w mdl sos eos lengthPenalty i.1 i.2.1 i.2.2)
    if dir = AttnDir.bwd then Except.error "NotImplementedError"
    else Except.ok results

/-- `AttentionSeq2seq.decode` (lines 860-906): the direction is forward iff
`fwd_weight_0 >= bwd_weight_0` (line 889); `beam_width == 1` dispatches to the
greedy fast path (out of scope here, abstracted as `greedyResult`), anything
else to the general beam search. -/
def attentionDecode {S DO AW : Type} (step : S → DO → AW → ℕ → AttnStepOut S DO AW)
    (fwdWeight bwdWeight : ℚ) (numClasses w mdl sos eos : ℕ)
    (lengthPenalty : ℚ) (inits : List (AW × S × DO))
    (greedyResult : List (Option (List ℕ × List AW))) :
    Except String (List (Option (List ℕ × List AW))) :=
  let dir := if bwdWeight ≤ fwdWeight then AttnDir.fwd else AttnDir.bwd
  if w = 1 then Except.ok greedyResult
  else decodeInferBeam step bwdWeight dir numClasses w mdl sos eos lengthPenalty inits

/-! ## Heap model of the per-branch decoder-state deep copy (claim C3)

Pure values cannot alias, so the ownership discipline of line 1157
(`'dec_state': copy.deepcopy(dec_state)`) is modelled on an explicit heap:
`copy.deepcopy` allocates a fresh address holding a copy of the value, and
branching one parent into `k` candidates performs `k` such allocations. -/

namespace HeapModel

/-- A heap of decoder states, addressed by position. -/
abbrev Heap (σ : Type) : Type := List σ

/-- Allocate a fresh cell; the address is the previous heap size. -/
def alloc {σ : Type} (h : Heap σ) (v : σ) : Heap σ × ℕ :=
  (h ++ [v], List.length h)

/-- Read the value at an address. -/
def read {σ : Type} (h : Heap σ) (a : ℕ) : Option σ := List.get? h a

/-- In-place mutation of the cell at an address (what a PyTorch operation
mutating a hypothesis's stored state in place would do). -/
def write {σ : Type} (h : Heap σ) (a : ℕ) (v : σ) : Heap σ := List.set h a v

/-- The `for k in range(beam_width)` branch point (lines 1143-1159): each of
the `k` new beam entries stores `copy.deepcopy(dec_state)` — a freshly
allocated copy of the parent STEP's state value `v`.  Returns the final heap
and the list of stored snapshot addresses, in candidate order. -/
def branchSnapshots {σ : Type} (h : Heap σ) (v : σ) : ℕ → Heap σ × List ℕ
  | 0 => (h, [])
  | k + 1 =>
    let h1 := alloc h v
    let rest := branchSnapshots h1.1 v k
    (rest.1, h1.2 :: rest.2)

end HeapModel

/-! ### Concrete inputs for the attention-path counterexamples and witnesses -/

/-- A deterministic STEP for the examples: classes `{0 = START, 1, 2 = END}`
with fixed log probabilities `(-2, -2, -1)`; the attention-weight trace tag is
incremented at every step so traces are distinguishable. -/
def stepC2 : Unit → Unit → ℕ → ℕ → AttnStepOut Unit Unit ℕ :=
  fun _ _ aw _ =>
    { logProbs := rowOf [-2, -2, -1]
      decState := ()
      decOut := ()
      awStep := aw + 1 }

/-- C7: a completed hypothesis whose emitted sequence (`hyp[1:]`,
END included) has length 3, raw score −2.0. -/
def hypLen3 : AttnHyp Unit Unit Unit :=
  { hyp := [0, 1, 1, 2], score := -2, decState := (), decOut := (), awSteps := [()] }

/-- C7: a completed hypothesis whose emitted sequence has length 5,
raw score −2.3. -/
def hypLen5 : AttnHyp Unit Unit Unit :=
  { hyp := [0, 1, 1, 1, 1, 2], score := -23/10, decState := (), decOut := (), awSteps := [()] }

/-! ## Auxiliary definitions for the proofs -/

/-- The keys of a next-beam dictionary, in insertion order. -/
def alKeys (nb : CtcNextBeam) : List CtcPref := nb.map (fun e => e.1)

/-- The (pointwise) amount `ctcProcess blank pt c · e` adds to the value
stored at key `k`: the inner loop body is additive in the accumulator. -/
def ctcDelta (blank : ℕ) (pt : ℕ → ℚ) (c : ℕ) (e : CtcEntry) (k : CtcPref) :
    ℚ × ℚ :=
  if c = blank then
    (if k = e.1 then ((e.2.1 + e.2.2) * pt c, 0) else 0)
  else if lastOf e.1 = some c then
    (if k = e.1 ++ [c] then ((0 : ℚ), e.2.1 * pt c) else 0) +
      (if k = e.1 then ((0 : ℚ), e.2.2 * pt c) else 0)
  else
    (if k = e.1 ++ [c] then ((0 : ℚ), (e.2.1 + e.2.2) * pt c) else 0)

/-- The keys written by `ctcProcess blank pt c · e` (independent of the
accumulator). -/
def ctcWritten (blank : ℕ) (c : ℕ) (e : CtcEntry) : List CtcPref :=
  if c = blank then [e.1]
  else if lastOf e.1 = some c then [e.1 ++ [c], e.1]
  else [e.1 ++ [c]]

/-! ## Shared lemmas: stable descending sort -/

instance keyedDesc.isTotal {α : Type} (key : α → ℚ) : IsTotal α (keyedDesc key) :=
  ⟨fun a b => le_total (key b) (key a)⟩

instance keyedDesc.isTrans {α : Type} (key : α → ℚ) : IsTrans α (keyedDesc key) :=
  ⟨fun _ _ _ h1 h2 => le_trans h2 h1⟩

theorem sortDesc_perm {α : Type} (key : α → ℚ) (l : List α) :
    (sortDesc key l).Perm l :=
  List.perm_insertionSort _ l

theorem mem_sortDesc {α : Type} (key : α → ℚ) {l : List α} {x : α} :
    x ∈ sortDesc key l ↔ x ∈ l :=
  List.mem_insertionSort _

theorem length_sortDesc {α : Type} (key : α → ℚ) (l : List α) :
    (sortDesc key l).length = l.length :=
  (sortDesc_perm key l).length_eq

theorem sortDesc_eq_nil_iff {α : Type} (key : α → ℚ) {l : List α} :
    sortDesc key l = [] ↔ l = [] := by
  constructor
  · intro h
    have := length_sortDesc key l
    rw [h] at this
    exact List.length_eq_zero.mp this.symm
  · intro h; subst h; rfl

/-- The head of the stable descending sort has a maximal key. -/
theorem sortDesc_head_le {α : Type} (key : α → ℚ) {l : List α} {b : α} {t : List α}
    (h : sortDesc key l = b :: t) : ∀ z ∈ l, key z ≤ key b := by
  intro z hz
  have hs : List.Sorted (keyedDesc key) (sortDesc key l) :=
    List.sorted_insertionSort _ l
  rw [h] at hs
  have hz' : z ∈ b :: t := by
    rw [← h, mem_sortDesc]; exact hz
  rcases List.mem_cons.mp hz' with rfl | hz''
  · exact le_refl _
  · exact (List.sorted_cons.mp hs).1 z hz''

/-- Taking a positive-length prefix keeps the head. -/
theorem head?_take {α : Type} {w : ℕ} (hw : 1 ≤ w) (l : List α) :
    (l.take w).head? = l.head? := by
  cases w with
  | zero => exact absurd hw (by norm_num)
  | succ n => cases l <;> rfl

/-- A positive-length prefix of a nonempty list is nonempty. -/
theorem take_ne_nil {α : Type} {w : ℕ} (hw : 1 ≤ w) {l : List α} (hl : l ≠ []) :
    l.take w ≠ [] := by
  cases w with
  | zero => exact absurd hw (by norm_num)
  | succ n => cases l with
    | nil => exact absurd rfl hl
    | cons a t => simp

/-- The head of a nonempty take is the head of the list. -/
theorem head?_of_take_head? {α : Type} {w : ℕ} {l : List α} {a : α}
    (h : (l.take w).head? = some a) : l.head? = some a := by
  cases w with
  | zero => simp at h
  | succ n => cases l with
    | nil => simp at h
    | cons b t => simpa using h

/-! ## Shared lemmas: the next-beam dictionary -/

theorem alGet_alSet_self (nb : CtcNextBeam) (k : CtcPref) (v : ℚ × ℚ) :
    alGet (alSet nb k v) k = v := by
  induction nb with
  | nil => simp [alGet, alSet]
  | cons e es ih =>
    by_cases h : e.1 = k
    · simp [alGet, alSet, h]
    · simp [alGet, alSet, h, ih]

theorem alGet_alSet_ne (nb : CtcNextBeam) {k k' : CtcPref} (v : ℚ × ℚ)
    (h : k' ≠ k) : alGet (alSet nb k v) k' = alGet nb k' := by
  have h' : ¬ k = k' := fun hc => h hc.symm
  induction nb with
  | nil => simp [alGet, alSet, h']
  | cons e es ih =>
    by_cases he : e.1 = k
    · subst he
      simp [alGet, alSet, h']
    · by_cases he' : e.1 = k'
      · simp [alGet, alSet, he, he', h]
      · simp [alGet, alSet, he, he', ih]

theorem alSet_ne_nil (nb : CtcNextBeam) (k : CtcPref) (v : ℚ × ℚ) :
    alSet nb k v ≠ [] := by
  cases nb with
  | nil => simp [alSet]
  | cons e es =>
    by_cases h : e.1 = k <;> simp [alSet, h]

/-- The key list after a write: unchanged for a present key, the new key
appended for an absent one. -/
theorem alKeys_alSet (nb : CtcNextBeam) (k : CtcPref) (v : ℚ × ℚ) :
    alKeys (alSet nb k v) =
      if k ∈ alKeys nb then alKeys nb else alKeys nb ++ [k] := by
  induction nb with
  | nil => simp [alKeys, alSet]
  | cons e es ih =>
    by_cases he : e.1 = k
    · subst he
      simp [alKeys, alSet]
    · have hne : ¬ k = e.1 := fun hc => he hc.symm
      by_cases hk : k ∈ alKeys es
      · simp only [alKeys] at hk ih
        simp [alKeys, alSet, he, hne, hk, ih]
      · simp only [alKeys] at hk ih
        simp [alKeys, alSet, he, hne, hk, ih]

theorem mem_alKeys_alSet {nb : CtcNextBeam} {k k' : CtcPref} {v : ℚ × ℚ} :
    k' ∈ alKeys (alSet nb k v) ↔ k' ∈ alKeys nb ∨ k' = k := by
  rw [alKeys_alSet]
  by_cases hk : k ∈ alKeys nb
  · simp only [if_pos hk]
    constructor
    · exact Or.inl
    · rintro (h | rfl)
      · exact h
      · exact hk
  · simp [if_neg hk]

theorem alKeys_alSet_nodup {nb : CtcNextBeam} {k : CtcPref} {v : ℚ × ℚ}
    (h : (alKeys nb).Nodup) : (alKeys (alSet nb k v)).Nodup := by
  rw [alKeys_alSet]
  by_cases hk : k ∈ alKeys nb
  · simpa [if_pos hk] using h
  · rw [if_neg hk]
    refine List.Nodup.append h (List.nodup_singleton k) ?_
    intro a ha hb
    rw [List.mem_singleton] at hb
    subst hb
    exact hk ha

/-- With distinct keys, the stored pair for a present key is in the list. -/
theorem mem_of_key_mem {nb : CtcNextBeam} {k : CtcPref}
    (hnd : (alKeys nb).Nodup) (hk : k ∈ alKeys nb) : (k, alGet nb k) ∈ nb := by
  induction nb with
  | nil => simp [alKeys] at hk
  | cons e es ih =>
    simp only [alKeys, List.map_cons, List.nodup_cons] at hnd
    rw [alKeys, List.map_cons] at hk
    rcases List.mem_cons.mp hk with he | hk'
    · subst he
      simp [alGet]
    · have hne : ¬ e.1 = k := fun hc => hnd.1 (by rw [hc]; exact hk')
      simp only [alGet, if_neg hne]
      exact List.mem_cons_of_mem _ (ih hnd.2 hk')

/-- With distinct keys, a stored pair's value is what lookup returns. -/
theorem alGet_of_mem {nb : CtcNextBeam} {e : CtcEntry}
    (hnd : (alKeys nb).Nodup) (he : e ∈ nb) : alGet nb e.1 = e.2 := by
  induction nb with
  | nil => simp at he
  | cons f fs ih =>
    simp only [alKeys, List.map_cons, List.nodup_cons] at hnd
    rcases List.mem_cons.mp he with rfl | he'
    · simp [alGet]
    · have hne : ¬ f.1 = e.1 := by
        intro hc
        exact hnd.1 (by rw [hc]; simpa [alKeys] using List.mem_map_of_mem (fun x => x.1) he')
      simp only [alGet, if_neg hne]
      exact ih hnd.2 he'

/-! ## Shared lemmas: the inner loop body is additive in the accumulator -/

theorem ne_append_singleton (l : List ℕ) (c : ℕ) : l ≠ l ++ [c] := by
  intro h
  have := congrArg List.length h
  simp at this

/-- Processing one (class, beam element) pair adds a fixed increment
`ctcDelta` to the value at every key. -/
theorem ctcProcess_alGet (blank : ℕ) (pt : ℕ → ℚ) (c : ℕ) (nb : CtcNextBeam)
    (e : CtcEntry) (k : CtcPref) :
    alGet (ctcProcess blank pt c nb e) k = alGet nb k + ctcDelta blank pt c e k := by
  by_cases hc : c = blank
  · simp only [ctcProcess, ctcDelta, if_pos hc]
    by_cases hk : k = e.1
    · subst hk
      rw [alGet_alSet_self]
      rw [if_pos rfl]
      rw [Prod.ext_iff]
      constructor <;> simp
    · rw [alGet_alSet_ne _ _ (fun hh => hk hh)]
      rw [if_neg hk, add_zero]
  · by_cases hrep : lastOf e.1 = some c
    · simp only [ctcProcess, ctcDelta, if_neg hc, if_pos hrep]
      have hne1 : e.1 ≠ e.1 ++ [c] := ne_append_singleton e.1 c
      have hget1 : alGet (alSet nb (e.1 ++ [c]) (((alGet nb (e.1 ++ [c])).1,
          (alGet nb (e.1 ++ [c])).2 + e.2.1 * pt c))) e.1 = alGet nb e.1 :=
        alGet_alSet_ne _ _ hne1
      by_cases hk1 : k = e.1 ++ [c]
      · subst hk1
        rw [alGet_alSet_ne _ _ (fun hh => hne1 hh.symm)]
        rw [alGet_alSet_self]
        rw [if_pos rfl, if_neg hne1.symm, add_zero]
        rw [Prod.ext_iff]
        constructor <;> simp
      · by_cases hk2 : k = e.1
        · subst hk2
          rw [alGet_alSet_self, hget1]
          rw [if_neg hk1, if_pos rfl, zero_add]
          rw [Prod.ext_iff]
          constructor <;> simp
        · rw [alGet_alSet_ne _ _ hk2, alGet_alSet_ne _ _ hk1]
          rw [if_neg hk1, if_neg hk2, add_zero, add_zero]
    · simp only [ctcProcess, ctcDelta, if_neg hc, if_neg hrep]
      by_cases hk : k = e.1 ++ [c]
      · subst hk
        rw [alGet_alSet_self]
        rw [if_pos rfl]
        rw [Prod.ext_iff]
        constructor <;> simp
      · rw [alGet_alSet_ne _ _ hk, if_neg hk, add_zero]

/-- The increment is nonnegative for nonnegative inputs. -/
theorem ctcDelta_nonneg {blank : ℕ} {pt : ℕ → ℚ} {c : ℕ} {e : CtcEntry}
    {k : CtcPref} (hpt : 0 ≤ pt c) (hb : 0 ≤ e.2.1) (hnb : 0 ≤ e.2.2) :
    0 ≤ ctcDelta blank pt c e k := by
  have h1 : (0 : ℚ) ≤ (e.2.1 + e.2.2) * pt c :=
    mul_nonneg (add_nonneg hb hnb) hpt
  have h2 : (0 : ℚ) ≤ e.2.1 * pt c := mul_nonneg hb hpt
  have h3 : (0 : ℚ) ≤ e.2.2 * pt c := mul_nonneg hnb hpt
  unfold ctcDelta
  split
  · split
    · exact ⟨h1, le_refl 0⟩
    · exact le_refl 0
  · split
    · refine add_nonneg ?_ ?_ <;> split
      · exact ⟨le_refl 0, h2⟩
      · exact le_refl 0
      · exact ⟨le_refl 0, h3⟩
      · exact le_refl 0
    · split
      · exact ⟨le_refl 0, h1⟩
      · exact le_refl 0

/-- Keys after processing: the old keys plus the written keys. -/
theorem mem_alKeys_ctcProcess {blank : ℕ} {pt : ℕ → ℚ} {c : ℕ}
    {nb : CtcNextBeam} {e : CtcEntry} {k : CtcPref} :
    k ∈ alKeys (ctcProcess blank pt c nb e) ↔
      k ∈ alKeys nb ∨ k ∈ ctcWritten blank c e := by
  by_cases hc : c = blank
  · simp only [ctcProcess, ctcWritten, if_pos hc]
    rw [mem_alKeys_alSet]
    simp
  · by_cases hrep : lastOf e.1 = some c
    · simp only [ctcProcess, ctcWritten, if_neg hc, if_pos hrep]
      rw [mem_alKeys_alSet, mem_alKeys_alSet]
      simp only [List.mem_cons, List.mem_singleton, List.not_mem_nil, or_false]
      tauto
    · simp only [ctcProcess, ctcWritten, if_neg hc, if_neg hrep]
      rw [mem_alKeys_alSet]
      simp

theorem ctcProcess_ne_nil (blank : ℕ) (pt : ℕ → ℚ) (c : ℕ) (nb : CtcNextBeam)
    (e : CtcEntry) : ctcProcess blank pt c nb e ≠ [] := by
  by_cases hc : c = blank
  · simp only [ctcProcess, if_pos hc]
    exact alSet_ne_nil _ _ _
  · by_cases hrep : lastOf e.1 = some c
    · simp only [ctcProcess, if_neg hc, if_pos hrep]
      exact alSet_ne_nil _ _ _
    · simp only [ctcProcess, if_neg hc, if_neg hrep]
      exact alSet_ne_nil _ _ _

theorem alKeys_nodup_ctcProcess {blank : ℕ} {pt : ℕ → ℚ} {c : ℕ}
    {nb : CtcNextBeam} {e : CtcEntry} (h : (alKeys nb).Nodup) :
    (alKeys (ctcProcess blank pt c nb e)).Nodup := by
  by_cases hc : c = blank
  · simp only [ctcProcess, if_pos hc]
    exact alKeys_alSet_nodup h
  · by_cases hrep : lastOf e.1 = some c
    · simp only [ctcProcess, if_neg hc, if_pos hrep]
      exact alKeys_alSet_nodup (alKeys_alSet_nodup h)
    · simp only [ctcProcess, if_neg hc, if_neg hrep]
      exact alKeys_alSet_nodup h

/-! ## Shared lemmas: the per-timestep folds -/

theorem list_sum_map_add {α M : Type} [AddCommMonoid M] (l : List α)
    (f g : α → M) :
    (l.map (fun x => f x + g x)).sum = (l.map f).sum + (l.map g).sum := by
  induction l with
  | nil => simp
  | cons a t ih =>
    simp only [List.map_cons, List.sum_cons, ih]
    abel

theorem ctcClassFold_alGet (blank : ℕ) (pt : ℕ → ℚ) (c : ℕ)
    (beam : List CtcEntry) (nb : CtcNextBeam) (k : CtcPref) :
    alGet (ctcClassFold blank pt c beam nb) k =
      alGet nb k + (beam.map (fun e => ctcDelta blank pt c e k)).sum := by
  induction beam generalizing nb with
  | nil => simp [ctcClassFold]
  | cons e es ih =>
    simp only [ctcClassFold, List.foldl_cons] at ih ⊢
    rw [ih, ctcProcess_alGet]
    simp only [List.map_cons, List.sum_cons]
    abel

theorem mem_alKeys_ctcClassFold {blank : ℕ} {pt : ℕ → ℚ} {c : ℕ}
    {beam : List CtcEntry} {nb : CtcNextBeam} {k : CtcPref} :
    k ∈ alKeys (ctcClassFold blank pt c beam nb) ↔
      k ∈ alKeys nb ∨ ∃ e ∈ beam, k ∈ ctcWritten blank c e := by
  induction beam generalizing nb with
  | nil => simp [ctcClassFold]
  | cons e es ih =>
    simp only [ctcClassFold, List.foldl_cons] at ih ⊢
    rw [ih, mem_alKeys_ctcProcess]
    simp only [List.mem_cons]
    constructor
    · rintro ((h | h) | ⟨e', he', hw⟩)
      · exact Or.inl h
      · exact Or.inr ⟨e, Or.inl rfl, h⟩
      · exact Or.inr ⟨e', Or.inr he', hw⟩
    · rintro (h | ⟨e', (rfl | he'), hw⟩)
      · exact Or.inl (Or.inl h)
      · exact Or.inl (Or.inr hw)
      · exact Or.inr ⟨e', he', hw⟩

theorem ctcClassFold_ne_nil {blank : ℕ} {pt : ℕ → ℚ} {c : ℕ}
    {beam : List CtcEntry} {nb : CtcNextBeam}
    (h : nb ≠ [] ∨ beam ≠ []) : ctcClassFold blank pt c beam nb ≠ [] := by
  induction beam generalizing nb with
  | nil =>
    rcases h with h | h
    · exact h
    · exact absurd rfl h
  | cons e es ih =>
    simp only [ctcClassFold, List.foldl_cons] at ih ⊢
    exact ih (Or.inl (ctcProcess_ne_nil blank pt c nb e))

theorem alKeys_nodup_ctcClassFold {blank : ℕ} {pt : ℕ → ℚ} {c : ℕ}
    {beam : List CtcEntry} {nb : CtcNextBeam} (h : (alKeys nb).Nodup) :
    (alKeys (ctcClassFold blank pt c beam nb)).Nodup := by
  induction beam generalizing nb with
  | nil => exact h
  | cons e es ih =>
    simp only [ctcClassFold, List.foldl_cons] at ih ⊢
    exact ih (alKeys_nodup_ctcProcess h)

theorem ctcNextBeam_alGet (blank numClasses : ℕ) (pt : ℕ → ℚ)
    (beam : List CtcEntry) (k : CtcPref) :
    alGet (ctcNextBeam blank numClasses pt beam) k =
      ((List.range numClasses).map
        (fun c => (beam.map (fun e => ctcDelta blank pt c e k)).sum)).sum := by
  have main : ∀ (cs : List ℕ) (nb : CtcNextBeam),
      alGet (cs.foldl (fun nb c => ctcClassFold blank pt c beam nb) nb) k =
        alGet nb k +
          (cs.map (fun c => (beam.map (fun e => ctcDelta blank pt c e k)).sum)).sum := by
    intro cs
    induction cs with
    | nil => intro nb; simp
    | cons c cs ih =>
      intro nb
      simp only [List.foldl_cons, List.map_cons, List.sum_cons]
      rw [ih, ctcClassFold_alGet]
      abel
  have h0 : alGet ([] : CtcNextBeam) k = 0 := by
    rw [alGet]
    rfl
  rw [ctcNextBeam, main, h0, zero_add]

theorem mem_alKeys_ctcNextBeam {blank numClasses : ℕ} {pt : ℕ → ℚ}
    {beam : List CtcEntry} {k : CtcPref} :
    k ∈ alKeys (ctcNextBeam blank numClasses pt beam) ↔
      ∃ c ∈ List.range numClasses, ∃ e ∈ beam, k ∈ ctcWritten blank c e := by
  have main : ∀ (cs : List ℕ) (nb : CtcNextBeam),
      (k ∈ alKeys (cs.foldl (fun nb c => ctcClassFold blank pt c beam nb) nb) ↔
        k ∈ alKeys nb ∨ ∃ c ∈ cs, ∃ e ∈ beam, k ∈ ctcWritten blank c e) := by
    intro cs
    induction cs with
    | nil => intro nb; simp
    | cons c cs ih =>
      intro nb
      simp only [List.foldl_cons]
      rw [ih, mem_alKeys_ctcClassFold]
      simp only [List.mem_cons]
      constructor
      · rintro ((h | h) | ⟨c', hc', he⟩)
        · exact Or.inl h
        · exact Or.inr ⟨c, Or.inl rfl, h⟩
        · exact Or.inr ⟨c', Or.inr hc', he⟩
      · rintro (h | ⟨c', (rfl | hc'), he⟩)
        · exact Or.inl (Or.inl h)
        · exact Or.inl (Or.inr he)
        · exact Or.inr ⟨c', hc', he⟩
  rw [ctcNextBeam, main]
  simp [alKeys]

theorem ctcNextBeam_ne_nil {blank numClasses : ℕ} {pt : ℕ → ℚ}
    {beam : List CtcEntry} (hC : 1 ≤ numClasses) (hb : beam ≠ []) :
    ctcNextBeam blank numClasses pt beam ≠ [] := by
  have main : ∀ (cs : List ℕ) (nb : CtcNextBeam), cs ≠ [] →
      cs.foldl (fun nb c => ctcClassFold blank pt c beam nb) nb ≠ [] := by
    intro cs
    induction cs with
    | nil => intro nb h; exact absurd rfl h
    | cons c cs ih =>
      intro nb _
      simp only [List.foldl_cons]
      cases cs with
      | nil => exact ctcClassFold_ne_nil (Or.inr hb)
      | cons c' cs' => exact ih _ (by simp)
  refine main _ _ ?_
  simp only [ne_eq, List.range_eq_nil]
  omega

theorem alKeys_nodup_ctcNextBeam {blank numClasses : ℕ} {pt : ℕ → ℚ}
    {beam : List CtcEntry} :
    (alKeys (ctcNextBeam blank numClasses pt beam)).Nodup := by
  have main : ∀ (cs : List ℕ) (nb : CtcNextBeam), (alKeys nb).Nodup →
      (alKeys (cs.foldl (fun nb c => ctcClassFold blank pt c beam nb) nb)).Nodup := by
    intro cs
    induction cs with
    | nil => intro nb h; exact h
    | cons c cs ih =>
      intro nb h
      simp only [List.foldl_cons]
      exact ih _ (alKeys_nodup_ctcClassFold h)
  exact main _ _ (by simp [alKeys])

/-! ## Shared lemmas: trim and the full run -/

theorem mem_of_mem_ctcTrim {w : ℕ} {nb : CtcNextBeam} {e : CtcEntry}
    (h : e ∈ ctcTrim w nb) : e ∈ nb := by
  have h1 : e ∈ sortDesc ctcScore nb := List.take_subset _ _ h
  exact (mem_sortDesc ctcScore).mp h1

theorem ctcRun_append (blank numClasses : ℕ) (rows : List (ℕ → ℚ))
    (r : ℕ → ℚ) (w : ℕ) :
    ctcRun blank numClasses (rows ++ [r]) w =
      ctcTrim w (ctcNextBeam blank numClasses r (ctcRun blank numClasses rows w)) := by
  simp [ctcRun, List.foldl_append]

theorem ctcRun_ne_nil {blank numClasses : ℕ} {rows : List (ℕ → ℚ)} {w : ℕ}
    (hw : 1 ≤ w) (hC : 1 ≤ numClasses) :
    ctcRun blank numClasses rows w ≠ [] := by
  induction rows using List.reverseRecOn with
  | nil => simp [ctcRun, ctcInit]
  | append_singleton rows r ih =>
    rw [ctcRun_append]
    unfold ctcTrim
    refine take_ne_nil hw ?_
    rw [ne_eq, sortDesc_eq_nil_iff]
    exact ctcNextBeam_ne_nil hC ih

/-- All values stored by one timestep are nonnegative when the row and the
incoming beam are. -/
theorem ctcNextBeam_alGet_nonneg {blank numClasses : ℕ} {pt : ℕ → ℚ}
    {beam : List CtcEntry} (hpt : ∀ c, 0 ≤ pt c)
    (hb : ∀ e ∈ beam, 0 ≤ e.2.1 ∧ 0 ≤ e.2.2) (k : CtcPref) :
    0 ≤ alGet (ctcNextBeam blank numClasses pt beam) k := by
  rw [ctcNextBeam_alGet]
  refine List.sum_nonneg ?_
  intro x hx
  rcases List.mem_map.mp hx with ⟨c, _, rfl⟩
  refine List.sum_nonneg ?_
  intro y hy
  rcases List.mem_map.mp hy with ⟨e, he, rfl⟩
  exact ctcDelta_nonneg (hpt c) (hb e he).1 (hb e he).2

/-- Entries of one timestep's output are nonnegative when the row and the
incoming beam are. -/
theorem ctcNextBeam_entry_nonneg {blank numClasses : ℕ} {pt : ℕ → ℚ}
    {beam : List CtcEntry} (hpt : ∀ c, 0 ≤ pt c)
    (hb : ∀ e ∈ beam, 0 ≤ e.2.1 ∧ 0 ≤ e.2.2) :
    ∀ e ∈ ctcNextBeam blank numClasses pt beam, 0 ≤ e.2.1 ∧ 0 ≤ e.2.2 := by
  intro e he
  have hv : alGet (ctcNextBeam blank numClasses pt beam) e.1 = e.2 :=
    alGet_of_mem alKeys_nodup_ctcNextBeam he
  have hn : (0 : ℚ × ℚ) ≤ e.2 := by
    rw [← hv]
    exact ctcNextBeam_alGet_nonneg hpt hb e.1
  exact Prod.mk_le_mk.mp hn

/-- Beam entries stay nonnegative along the whole run. -/
theorem ctcRun_entry_nonneg {blank numClasses : ℕ} {rows : List (ℕ → ℚ)} {w : ℕ}
    (hr : ∀ pt ∈ rows, ∀ c, 0 ≤ pt c) :
    ∀ e ∈ ctcRun blank numClasses rows w, 0 ≤ e.2.1 ∧ 0 ≤ e.2.2 := by
  induction rows using List.reverseRecOn with
  | nil =>
    intro e he
    simp only [ctcRun, List.foldl_nil, ctcInit, List.mem_singleton] at he
    subst he
    norm_num
  | append_singleton rows r ih =>
    intro e he
    rw [ctcRun_append] at he
    have hr' : ∀ pt ∈ rows, ∀ c, 0 ≤ pt c := by
      intro pt hpt
      exact hr pt (List.mem_append_left _ hpt)
    have hrr : ∀ c, 0 ≤ r c := hr r (List.mem_append_right _ (List.mem_singleton_self r))
    exact ctcNextBeam_entry_nonneg hrr (ih hr') e (mem_of_mem_ctcTrim he)

/-- The extending-monotonicity of one timestep: more parent beam entries can
only increase the mass at every key (nonnegative inputs). -/
theorem ctcNextBeam_alGet_le_append {blank numClasses : ℕ} {pt : ℕ → ℚ}
    {b1 b2 : List CtcEntry} (hpt : ∀ c, 0 ≤ pt c)
    (hb2 : ∀ e ∈ b2, 0 ≤ e.2.1 ∧ 0 ≤ e.2.2) (k : CtcPref) :
    alGet (ctcNextBeam blank numClasses pt b1) k ≤
      alGet (ctcNextBeam blank numClasses pt (b1 ++ b2)) k := by
  rw [ctcNextBeam_alGet, ctcNextBeam_alGet]
  have heq : ∀ c : ℕ,
      ((b1 ++ b2).map (fun e => ctcDelta blank pt c e k)).sum =
        (b1.map (fun e => ctcDelta blank pt c e k)).sum +
          (b2.map (fun e => ctcDelta blank pt c e k)).sum := by
    intro c
    rw [List.map_append, List.sum_append]
  calc ((List.range numClasses).map
          (fun c => (b1.map (fun e => ctcDelta blank pt c e k)).sum)).sum
      ≤ ((List.range numClasses).map
          (fun c => (b1.map (fun e => ctcDelta blank pt c e k)).sum)).sum +
        ((List.range numClasses).map
          (fun c => (b2.map (fun e => ctcDelta blank pt c e k)).sum)).sum := by
        refine le_add_of_nonneg_right ?_
        refine List.sum_nonneg ?_
        intro x hx
        rcases List.mem_map.mp hx with ⟨c, _, rfl⟩
        refine List.sum_nonneg ?_
        intro y hy
        rcases List.mem_map.mp hy with ⟨e, he, rfl⟩
        exact ctcDelta_nonneg (hpt c) (hb2 e he).1 (hb2 e he).2
    _ = ((List.range numClasses).map
          (fun c => ((b1 ++ b2).map (fun e => ctcDelta blank pt c e k)).sum)).sum := by
        simp only [heq]
        rw [list_sum_map_add]

/-! ## Shared lemmas: blank-free prefixes -/

theorem ctcWritten_no_blank {blank c : ℕ} {e : CtcEntry} {k : CtcPref}
    (he : blank ∉ e.1) (hk : k ∈ ctcWritten blank c e) : blank ∉ k := by
  by_cases hc : c = blank
  · simp only [ctcWritten, if_pos hc, List.mem_singleton] at hk
    subst hk
    exact he
  · by_cases hrep : lastOf e.1 = some c
    · simp only [ctcWritten, if_neg hc, if_pos hrep, List.mem_cons,
        List.mem_singleton, List.not_mem_nil, or_false] at hk
      rcases hk with rfl | rfl
      · intro hmem
        rcases List.mem_append.mp hmem with h | h
        · exact he h
        · rw [List.mem_singleton] at h
          exact hc h.symm
      · exact he
    · simp only [ctcWritten, if_neg hc, if_neg hrep, List.mem_singleton] at hk
      subst hk
      intro hmem
      rcases List.mem_append.mp hmem with h | h
      · exact he h
      · rw [List.mem_singleton] at h
        exact hc h.symm

/-- No beam prefix ever contains the blank label. -/
theorem ctcRun_no_blank {blank numClasses : ℕ} {rows : List (ℕ → ℚ)} {w : ℕ} :
    ∀ e ∈ ctcRun blank numClasses rows w, blank ∉ e.1 := by
  induction rows using List.reverseRecOn with
  | nil =>
    intro e he
    simp only [ctcRun, List.foldl_nil, ctcInit, List.mem_singleton] at he
    subst he
    simp
  | append_singleton rows r ih =>
    intro e he
    rw [ctcRun_append] at he
    have hN : e ∈ ctcNextBeam blank numClasses r (ctcRun blank numClasses rows w) :=
      mem_of_mem_ctcTrim he
    have hkey : e.1 ∈ alKeys (ctcNextBeam blank numClasses r (ctcRun blank numClasses rows w)) :=
      List.mem_map_of_mem (fun x => x.1) hN
    rcases mem_alKeys_ctcNextBeam.mp hkey with ⟨c, _, p, hp, hw⟩
    exact ctcWritten_no_blank (ih p hp) hw

/-! ## Shared lemmas: attention beam search -/

theorem filter_pos_neg_ne_nil {α : Type} (p : α → Prop) [DecidablePred p]
    {l : List α} (hl : l ≠ []) :
    l.filter (fun a => decide (p a)) ≠ [] ∨
      l.filter (fun a => decide (¬ p a)) ≠ [] := by
  cases l with
  | nil => exact absurd rfl hl
  | cons a t =>
    by_cases h : p a
    · left
      simp only [List.filter_cons, decide_eq_true_eq]
      rw [if_pos h]
      simp
    · right
      simp only [List.filter_cons, decide_eq_true_eq]
      rw [if_pos h]
      simp

theorem attnTopk_ne_nil {numClasses k : ℕ} {lp : ℕ → ℚ}
    (hC : 1 ≤ numClasses) (hk : 1 ≤ k) : attnTopk numClasses k lp ≠ [] := by
  unfold attnTopk
  refine take_ne_nil hk ?_
  rw [ne_eq, sortDesc_eq_nil_iff]
  simp only [ne_eq, List.map_eq_nil_iff, List.range_eq_nil]
  omega

theorem attnExpand_ne_nil {S DO AW : Type}
    {step : S → DO → AW → ℕ → AttnStepOut S DO AW} {numClasses w sos : ℕ}
    {aw0 : AW} {h : AttnHyp S DO AW} (hC : 1 ≤ numClasses) (hw : 1 ≤ w) :
    attnExpand step numClasses w sos aw0 h ≠ [] := by
  unfold attnExpand
  simp only [ne_eq, List.map_eq_nil_iff]
  exact attnTopk_ne_nil hC hw

theorem attnStepAll_ne_nil {S DO AW : Type}
    {step : S → DO → AW → ℕ → AttnStepOut S DO AW} {numClasses w sos : ℕ}
    {aw0 : AW} {beam : List (AttnHyp S DO AW)} (hC : 1 ≤ numClasses)
    (hw : 1 ≤ w) (hb : beam ≠ []) :
    attnStepAll step numClasses w sos aw0 beam ≠ [] := by
  cases beam with
  | nil => exact absurd rfl hb
  | cons h t =>
    unfold attnStepAll
    simp only [List.map_cons, List.flatten_cons, ne_eq, List.append_eq_nil]
    intro hc
    exact attnExpand_ne_nil hC hw hc.1

/-- The loop never ends with both an empty live beam and an empty completed
set (given `beam_width ≥ 1`, `num_classes ≥ 1`, and a nonempty start). -/
theorem attnLoop_ne_nil {S DO AW : Type}
    {step : S → DO → AW → ℕ → AttnStepOut S DO AW} {numClasses w sos eos : ℕ}
    {aw0 : AW} (hC : 1 ≤ numClasses) (hw : 1 ≤ w) :
    ∀ (fuel : ℕ) (beam complete : List (AttnHyp S DO AW)),
      (beam ≠ [] ∨ complete ≠ []) →
      (attnLoop step numClasses w sos eos aw0 fuel beam complete).1 ≠ [] ∨
        (attnLoop step numClasses w sos eos aw0 fuel beam complete).2 ≠ [] := by
  intro fuel
  induction fuel with
  | zero => intro beam complete h; exact h
  | succ fuel ih =>
    intro beam complete h
    simp only [attnLoop]
    split
    · rename_i hbreak
      right
      refine take_ne_nil hw (List.ne_nil_of_length_pos ?_)
      omega
    · rename_i hbreak
      refine ih _ _ ?_
      rcases h with hbeam | hcomp
      · have htop : (sortDesc (fun h => h.score)
            (attnStepAll step numClasses w sos aw0 beam)).take w ≠ [] := by
          refine take_ne_nil hw ?_
          rw [ne_eq, sortDesc_eq_nil_iff]
          exact attnStepAll_ne_nil hC hw hbeam
        rcases filter_pos_neg_ne_nil (fun h => lastD h.hyp sos = eos) htop with hpos | hneg
        · right
          simp only [ne_eq, List.append_eq_nil, not_and]
          intro _
          exact hpos
        · left
          exact take_ne_nil hw hneg
      · right
        simp only [ne_eq, List.append_eq_nil, not_and]
        intro hc
        exact absurd hc hcomp

/-- The final completed set (with the empty-completion fallback) is nonempty. -/
theorem attnCompleteFinal_ne_nil {S DO AW : Type}
    {step : S → DO → AW → ℕ → AttnStepOut S DO AW}
    {numClasses w mdl sos eos : ℕ} {aw0 : AW} {s0 : S} {do0 : DO}
    (hC : 1 ≤ numClasses) (hw : 1 ≤ w) :
    attnCompleteFinal step numClasses w mdl sos eos aw0 s0 do0 ≠ [] := by
  simp only [attnCompleteFinal]
  have h := @attnLoop_ne_nil S DO AW step numClasses w sos eos aw0 hC hw mdl
    [{ hyp := [sos], score := 0, decState := s0, decOut := do0, awSteps := [aw0] }] []
    (Or.inl (by simp))
  split
  · rename_i hemp
    rcases h with h1 | h2
    · exact h1
    · exact absurd (List.isEmpty_iff.mp hemp) h2
  · rename_i hemp
    intro hc
    exact hemp (by rw [hc]; rfl)

theorem attnAdjust_ne_nil {S DO AW : Type} {lengthPenalty : ℚ}
    {l : List (AttnHyp S DO AW)} (h : l ≠ []) :
    attnAdjust lengthPenalty l ≠ [] := by
  unfold attnAdjust
  split
  · simpa using h
  · exact h

/-! ## Shared lemmas: heap model of the per-branch deep copy -/

namespace HeapModel

theorem replicate_get? {σ : Type} (v : σ) : ∀ (k m : ℕ), m < k →
    (List.replicate k v).get? m = some v := by
  intro k
  induction k with
  | zero => intro m hm; omega
  | succ k ih =>
    intro m hm
    cases m with
    | zero => rfl
    | succ m =>
      simp only [List.replicate_succ, List.get?_cons_succ]
      exact ih m (by omega)

theorem branchSnapshots_spec {σ : Type} (v : σ) : ∀ (k : ℕ) (h : Heap σ),
    branchSnapshots h v k =
      (h ++ List.replicate k v, List.range' (List.length h) k) := by
  intro k
  induction k with
  | zero => intro h; simp [branchSnapshots, Heap]
  | succ k ih =>
    intro h
    simp only [branchSnapshots, alloc, ih, List.length_append, List.length_singleton]
    rw [Prod.ext_iff]
    constructor <;> simp [List.replicate_succ, List.range'_succ]

theorem read_write_ne {σ : Type} (H : Heap σ) (a b : ℕ) (x : σ) (hab : a ≠ b) :
    read (write H a x) b = read H b :=
  List.get?_set_ne x H hab

end HeapModel

/-- With `max_decode_len = 0` the attention loop never runs and the decoder
returns the empty sequence and empty trace without any error. -/
theorem attnDecodeU_mdl_zero {S DO AW : Type}
    (step : S → DO → AW → ℕ → AttnStepOut S DO AW)
    (numClasses w sos eos : ℕ) (lengthPenalty : ℚ) (aw0 : AW) (s0 : S) (do0 : DO) :
    attnDecodeU step numClasses w 0 sos eos lengthPenalty aw0 s0 do0 =
      some ([], []) := by
  by_cases hlp : 0 < lengthPenalty <;>
    simp [attnDecodeU, attnCompleteFinal, attnLoop, attnFinalize, attnAdjust,
      hlp, sortDesc, List.insertionSort, List.orderedInsert]

/-! ## Claim C1 -/

/-- C1, counterexample.  The claim says the repeat case updates the *unchanged*
prefix's `p_nonblank` from `p_blank_prev + p_t(c)` only; the source (line 110)
uses `p_nb + p_t`.  On the concrete matrix `rowsC1` the decoder following the
claim's words returns a different label sequence than the real decoder. -/
theorem ctc_repeat_case_counterexample :
    ctcDecodeU 0 3 rowsC1 1 = some [1] ∧
      ctcDecodeSpecC1U 0 3 rowsC1 1 = some [1, 2] ∧
      ctcDecodeU 0 3 rowsC1 1 ≠ ctcDecodeSpecC1U 0 3 rowsC1 1 := by
  with_unfolding_all decide

/-- C1 (amended): in the repeat case (`c ≠ blank`, `c` = last label of the
prefix) the decoder (i) updates the *unchanged* prefix's `p_nonblank` from
`p_nonblank_prev + p_t(c)` only (`p_nb * pt c` in the linear domain), and
(ii) gives the extended prefix's `p_nonblank` an accumulation from
`p_blank_prev + p_t(c)` only (`p_b * pt c`), never from `p_nonblank_prev`. -/
theorem ctc_repeat_case_update (blank : ℕ) (pt : ℕ → ℚ) (c : ℕ)
    (nb : CtcNextBeam) (e : CtcEntry) (hc : ¬ c = blank)
    (hrep : lastOf e.1 = some c) :
    alGet (ctcProcess blank pt c nb e) e.1 =
      ((alGet nb e.1).1, (alGet nb e.1).2 + e.2.2 * pt c) ∧
    alGet (ctcProcess blank pt c nb e) (e.1 ++ [c]) =
      ((alGet nb (e.1 ++ [c])).1, (alGet nb (e.1 ++ [c])).2 + e.2.1 * pt c) := by
  constructor
  · rw [ctcProcess_alGet]
    simp only [ctcDelta, if_neg hc, if_pos hrep,
      if_neg (ne_append_singleton e.1 c), if_pos rfl, zero_add]
    rw [Prod.ext_iff]
    constructor <;> simp
  · rw [ctcProcess_alGet]
    simp only [ctcDelta, if_neg hc, if_pos hrep, if_pos rfl,
      if_neg (Ne.symm (ne_append_singleton e.1 c)), add_zero]
    rw [Prod.ext_iff]
    constructor <;> simp

/-- Witness for `ctc_repeat_case_update` at a concrete repeat step. -/
theorem ctc_repeat_case_update_witness :
    alGet (ctcProcess 0 (rowOf [1/2, 1/3]) 1 [] ([1], 1/2, 1/3)) [1] =
      ((alGet [] [1]).1, (alGet [] [1]).2 + (1/3 : ℚ) * rowOf [1/2, 1/3] 1) ∧
    alGet (ctcProcess 0 (rowOf [1/2, 1/3]) 1 [] ([1], 1/2, 1/3)) ([1] ++ [1]) =
      ((alGet [] ([1] ++ [1])).1,
        (alGet [] ([1] ++ [1])).2 + (1/2 : ℚ) * rowOf [1/2, 1/3] 1) :=
  ctc_repeat_case_update 0 (rowOf [1/2, 1/3]) 1 [] ([1], 1/2, 1/3)
    (by decide) (by decide)

/-! ## Claim C7 -/

/-- C7, counterexample.  With `length_penalty = 0.1`, completed hypotheses of
emitted length 3 (raw score −2.0) and emitted length 5 (raw score −2.3)
receive adjusted scores −1.6 and −1.7 — not the claimed −1.7 and −1.8 —
because the code (line 1182) adds `len(hyp) * penalty` with `len(hyp)`
counting the START symbol as well. -/
theorem attn_length_penalty_counterexample :
    (attnFinalize (1/10) [hypLen3, hypLen5]).map (fun h => (h.hyp, h.score)) =
      [([0, 1, 1, 2], -8/5), ([0, 1, 1, 1, 1, 2], -17/10)] ∧
    ¬ ((-8/5 : ℚ) = -17/10) ∧ ¬ ((-17/10 : ℚ) = -9/5) := by
  with_unfolding_all decide

/-- C7 (amended): with `length_penalty = 0.1` the two completed hypotheses
(stored sequences `START + 3` and `START + 5` symbols, raw scores −2.0 and
−2.3) receive adjusted scores −1.6 and −1.7 via
`adjusted = score + len(hyp) × penalty` (START counted), applied once before
the final ranking, and the length-3 hypothesis is selected. -/
theorem attn_length_penalty_scenario :
    (attnFinalize (1/10) [hypLen3, hypLen5]).map (fun h => (h.hyp, h.score)) =
      [([0, 1, 1, 2], -8/5), ([0, 1, 1, 1, 1, 2], -17/10)] ∧
    (attnFinalize (1/10) [hypLen3, hypLen5]).head?.map (fun h => h.hyp) =
      some [0, 1, 1, 2] := by
  with_unfolding_all decide

/-! ## Claim C8 -/

/-- C8, counterexample.  On `rowsC8` (strongly `a`, blank, `a`) the
`beam_width = 1` decode returns `[1, 1]`, whose adjacent positions 0 and 1
hold identical labels, refuting the claim's "no two identical adjacent
labels". -/
theorem ctc_width1_adjacent_repeat_counterexample :
    ctcDecodeU 0 3 rowsC8 1 = some [1, 1] ∧
      ([1, 1] : List ℕ).get? 0 = ([1, 1] : List ℕ).get? 1 :=
  ⟨by with_unfolding_all decide, by decide⟩

/-- C8 (amended): `beam_width = 1` CTC decoding is deterministic (the
embedding is a pure function of the matrix) and its output never contains the
blank label; adjacent identical labels can occur (e.g. from an
`a, blank, a` path). -/
theorem ctc_no_blank_in_output (blank numClasses : ℕ) (rows : List (ℕ → ℚ))
    (out : CtcPref) (h : ctcDecodeU blank numClasses rows 1 = some out) :
    blank ∉ out := by
  unfold ctcDecodeU at h
  rcases hr : ctcRun blank numClasses rows 1 with _ | ⟨e, t⟩
  · rw [hr] at h
    simp at h
  · rw [hr] at h
    simp only [List.head?_cons, Option.map_some'] at h
    obtain rfl : e.1 = out := Option.some.inj h
    exact ctcRun_no_blank e (by rw [hr]; exact List.mem_cons_self e t)

/-- Witness for `ctc_no_blank_in_output` on the concrete matrix `rowsC8`. -/
theorem ctc_no_blank_in_output_witness : (0 : ℕ) ∉ [1, 1] :=
  ctc_no_blank_in_output 0 3 rowsC8 [1, 1] (by with_unfolding_all decide)

/-! ## Claim C9 -/

/-- C9, counterexample.  On the blank-dominant matrix `rowsC9` the decoder
returns the empty prefix (the top of the final beam), not the highest-scoring
prefix with the empty prefix excluded (which would be `[1]`). -/
theorem ctc_terminal_empty_prefix_counterexample :
    ctcDecodeU 0 2 rowsC9 2 = some [] ∧
      ctcDecodeSpecC9U 0 2 rowsC9 2 = some [1] ∧
      ctcDecodeU 0 2 rowsC9 2 ≠ ctcDecodeSpecC9U 0 2 rowsC9 2 := by
  with_unfolding_all decide

/-- Helper: the head of the final beam has maximal combined score. -/
theorem ctcRun_head_max {blank numClasses w : ℕ} {rows : List (ℕ → ℚ)}
    {e : CtcEntry} {t : List CtcEntry}
    (hr : ctcRun blank numClasses rows w = e :: t) :
    ∀ e' ∈ ctcRun blank numClasses rows w, ctcScore e' ≤ ctcScore e := by
  induction rows using List.reverseRecOn with
  | nil =>
    intro e' he'
    simp only [ctcRun, List.foldl_nil, ctcInit] at hr he'
    rcases List.mem_singleton.mp he' with rfl
    have : e = ([], 1, 0) := by
      injection hr with h1 h2
      exact h1.symm
    rw [this]
  | append_singleton rows r _ =>
    intro e' he'
    rw [ctcRun_append] at hr he'
    have hhead : (sortDesc ctcScore
        (ctcNextBeam blank numClasses r (ctcRun blank numClasses rows w))).head? =
        some e := by
      refine @head?_of_take_head? _ w _ _ ?_
      rw [show (sortDesc ctcScore (ctcNextBeam blank numClasses r
        (ctcRun blank numClasses rows w))).take w = e :: t from hr]
      rfl
    rcases hS : sortDesc ctcScore
        (ctcNextBeam blank numClasses r (ctcRun blank numClasses rows w)) with _ | ⟨b, t'⟩
    · rw [hS] at hhead
      simp at hhead
    · rw [hS] at hhead
      have hb : b = e := by simpa using hhead
      subst hb
      have he'' : e' ∈ sortDesc ctcScore
          (ctcNextBeam blank numClasses r (ctcRun blank numClasses rows w)) :=
        List.take_subset _ _ he'
      exact sortDesc_head_le ctcScore hS e' ((mem_sortDesc _).mp he'')

/-- C9 (amended): at the terminal step the returned label sequence is the
highest-scoring prefix among *all* final beam elements, the empty prefix
included (a blank-dominated beam legitimately yields the empty sequence). -/
theorem ctc_terminal_top_of_final_beam (blank numClasses : ℕ)
    (rows : List (ℕ → ℚ)) (w : ℕ) (out : CtcPref)
    (h : ctcDecodeU blank numClasses rows w = some out) :
    ∃ e ∈ ctcRun blank numClasses rows w, out = e.1 ∧
      ∀ e' ∈ ctcRun blank numClasses rows w, ctcScore e' ≤ ctcScore e := by
  unfold ctcDecodeU at h
  rcases hr : ctcRun blank numClasses rows w with _ | ⟨e, t⟩
  · rw [hr] at h
    simp at h
  · rw [hr] at h
    simp only [List.head?_cons, Option.map_some'] at h
    obtain rfl : e.1 = out := Option.some.inj h
    refine ⟨e, List.mem_cons_self e t, rfl, ?_⟩
    have hmax := ctcRun_head_max hr
    rwa [hr] at hmax

/-- Witness for `ctc_terminal_top_of_final_beam` on the matrix `rowsC9`. -/
theorem ctc_terminal_top_of_final_beam_witness :
    ∃ e ∈ ctcRun 0 2 rowsC9 2, ([] : CtcPref) = e.1 ∧
      ∀ e' ∈ ctcRun 0 2 rowsC9 2, ctcScore e' ≤ ctcScore e :=
  ctc_terminal_top_of_final_beam 0 2 rowsC9 2 [] (by with_unfolding_all decide)

/-! ## Claim C10 -/

/-- C10 (confirmed): the CTC beam decoder's output is identical for all values
of the `alpha` (language model weight) and `beta` (insertion bonus)
parameters — the body of `BeamSearchDecoder.__call__` never reads them. -/
theorem ctc_alpha_beta_irrelevant (blank numClasses : ℕ)
    (logProbs : List (List (ℕ → ℚ))) (xLens : List ℕ) (beamWidth : ℕ)
    (a b a' b' : ℚ) :
    beamSearchDecoderCall blank numClasses logProbs xLens beamWidth a b =
      beamSearchDecoderCall blank numClasses logProbs xLens beamWidth a' b' := rfl

/-! ## Claim C5 -/

/-- C5, counterexample.  With the out-of-range blank index 5 (only classes 0
and 1 exist) the CTC decoder raises nothing and happily returns a decoded
batch — no configuration is validated, refuting "fails fast ... raise an
error before performing any decoding work". -/
theorem decoders_no_fail_fast_counterexample :
    beamSearchDecoderCall 5 2 [rowsC5] [1] 1 0 0 = some [[0]] := by
  with_unfolding_all decide

/-- C5 (amended): neither decoder validates its configuration and nothing
fails fast.  The CTC decoder runs the full decode and returns a label
sequence for *any* blank index (out of range or not) whenever
`beam_width ≥ 1` and `num_classes ≥ 1`.  The attention beam path with
`max_decode_len ≤ 0` runs its (empty) search to completion and selects the
initial hypothesis — the per-utterance search returns the empty sequence with
an empty trace — and only the subsequent trace assembly (line 1200,
`torch.stack` of an empty list) raises: an error *after* all decoding work,
not a fail-fast validation error. -/
theorem decoders_validate_nothing :
    (∀ (blank numClasses : ℕ) (rows : List (ℕ → ℚ)) (w : ℕ),
        1 ≤ w → 1 ≤ numClasses →
        (ctcDecodeU blank numClasses rows w).isSome = true) ∧
    (∀ (S DO AW : Type) (step : S → DO → AW → ℕ → AttnStepOut S DO AW)
        (numClasses w sos eos : ℕ) (lengthPenalty : ℚ)
        (aw0 : AW) (s0 : S) (do0 : DO),
        attnDecodeU step numClasses w 0 sos eos lengthPenalty aw0 s0 do0 =
          some ([], []) ∧
        attnDecodeUFull step numClasses w 0 sos eos lengthPenalty aw0 s0 do0 =
          none) := by
  constructor
  · intro blank numClasses rows w hw hC
    unfold ctcDecodeU
    rcases hne : ctcRun blank numClasses rows w with _ | ⟨e, t⟩
    · exact absurd hne (ctcRun_ne_nil hw hC)
    · simp
  · intro S DO AW step numClasses w sos eos lp aw0 s0 do0
    have h := attnDecodeU_mdl_zero step numClasses w sos eos lp aw0 s0 do0
    refine ⟨h, ?_⟩
    unfold attnDecodeUFull
    rw [h]
    rfl

/-- Witness for `decoders_validate_nothing` at concrete invalid
configurations (blank index 5 with two classes; `max_decode_len = 0`). -/
theorem decoders_validate_nothing_witness :
    (ctcDecodeU 5 2 rowsC5 1).isSome = true ∧
      (attnDecodeU stepC2 3 2 0 0 2 0 0 () () = some ([], []) ∧
        attnDecodeUFull stepC2 3 2 0 0 2 0 0 () () = none) :=
  ⟨decoders_validate_nothing.1 5 2 rowsC5 1 (by norm_num) (by norm_num),
   decoders_validate_nothing.2 Unit Unit ℕ stepC2 3 2 0 2 0 0 () ()⟩

/-! ## Claim C6 -/

/-- Helper: a nonempty candidate set yields a trimmed beam whose head is a
member of maximal combined score. -/
theorem ctcTrim_head {w : ℕ} (hw : 1 ≤ w) {nb : CtcNextBeam} (hnb : nb ≠ []) :
    ∃ b, (ctcTrim w nb).head? = some b ∧ b ∈ nb ∧
      ∀ z ∈ nb, ctcScore z ≤ ctcScore b := by
  rcases hS : sortDesc ctcScore nb with _ | ⟨b, t⟩
  · exact absurd ((sortDesc_eq_nil_iff ctcScore).mp hS) hnb
  · refine ⟨b, ?_, ?_, sortDesc_head_le ctcScore hS⟩
    · unfold ctcTrim
      rw [head?_take hw, hS]
      rfl
    · rw [← mem_sortDesc ctcScore, hS]
      exact List.mem_cons_self b t

/-- C6, counterexample.  On the fixed matrix `rowsC6` (`T = 3`), widening the
beam from 2 to 3 strictly *decreases* the combined score of the top-ranked
returned prefix (55/64 versus 49/64 in the linear domain): pruning interacts
with prefix merging, so the claimed monotonicity fails. -/
theorem ctc_beam_monotone_counterexample :
    ctcTopScore 0 3 rowsC6 2 = some (55/64) ∧
      ctcTopScore 0 3 rowsC6 3 = some (49/64) ∧ ((49 : ℚ)/64) < 55/64 := by
  with_unfolding_all decide

/-- C6 (amended): for matrices with at most two timesteps (and nonnegative
linear-domain probabilities) the top combined score is monotone in the beam
width; from `T = 3` on it can strictly decrease. -/
theorem ctc_beam_monotone_T2 (blank numClasses : ℕ) (rows : List (ℕ → ℚ))
    (w1 w2 : ℕ) (hlen : rows.length ≤ 2)
    (hnn : ∀ pt ∈ rows, ∀ c, 0 ≤ pt c) (hw1 : 1 ≤ w1) (hw12 : w1 ≤ w2)
    (hC : 1 ≤ numClasses) :
    ∃ s1 s2, ctcTopScore blank numClasses rows w1 = some s1 ∧
      ctcTopScore blank numClasses rows w2 = some s2 ∧ s1 ≤ s2 := by
  have hw2 : 1 ≤ w2 := le_trans hw1 hw12
  have hinit : (ctcInit : List CtcEntry) ≠ [] := by simp [ctcInit]
  rcases rows with _ | ⟨r1, rows'⟩
  · exact ⟨ctcScore ([], 1, 0), ctcScore ([], 1, 0), rfl, rfl, le_refl _⟩
  · rcases rows' with _ | ⟨r2, rows''⟩
    · -- T = 1: both runs trim the same candidate set, so both heads coincide.
      have hN0 : ctcNextBeam blank numClasses r1 ctcInit ≠ [] :=
        ctcNextBeam_ne_nil hC hinit
      obtain ⟨b1, hb1, _, _⟩ := ctcTrim_head hw1 hN0
      obtain ⟨b2, hb2, _, hmax⟩ := ctcTrim_head hw2 hN0
      have hsame : b1 = b2 := by
        have h1 : (sortDesc ctcScore (ctcNextBeam blank numClasses r1 ctcInit)).head? =
            some b1 := by
          rw [← head?_take hw1]
          exact hb1
        have h2 : (sortDesc ctcScore (ctcNextBeam blank numClasses r1 ctcInit)).head? =
            some b2 := by
          rw [← head?_take hw2]
          exact hb2
        rw [h1] at h2
        exact Option.some.inj h2
      refine ⟨ctcScore b1, ctcScore b2, ?_, ?_, le_of_eq (by rw [hsame])⟩
      · show ((ctcTrim w1 (ctcNextBeam blank numClasses r1 ctcInit)).head?).map
          ctcScore = some (ctcScore b1)
        rw [hb1]
        rfl
      · show ((ctcTrim w2 (ctcNextBeam blank numClasses r1 ctcInit)).head?).map
          ctcScore = some (ctcScore b2)
        rw [hb2]
        rfl
    · rcases rows'' with _ | ⟨r3, rows'''⟩
      · -- T = 2: the narrow second-step beam is a prefix of the wide one.
        have hr1 : ∀ c, 0 ≤ r1 c := hnn r1 (by simp)
        have hr2 : ∀ c, 0 ≤ r2 c := hnn r2 (by simp)
        have hinitnn : ∀ e ∈ (ctcInit : List CtcEntry), 0 ≤ e.2.1 ∧ 0 ≤ e.2.2 := by
          intro e he
          simp only [ctcInit, List.mem_singleton] at he
          subst he
          norm_num
        have hN0 : ctcNextBeam blank numClasses r1 ctcInit ≠ [] :=
          ctcNextBeam_ne_nil hC hinit
        have hN0nn : ∀ e ∈ ctcNextBeam blank numClasses r1 ctcInit,
            0 ≤ e.2.1 ∧ 0 ≤ e.2.2 :=
          ctcNextBeam_entry_nonneg hr1 hinitnn
        have hS0 : sortDesc ctcScore (ctcNextBeam blank numClasses r1 ctcInit) ≠ [] := by
          rw [ne_eq, sortDesc_eq_nil_iff]
          exact hN0
        -- the two second-step parent beams
        have hsplit : ctcTrim w2 (ctcNextBeam blank numClasses r1 ctcInit) =
            ctcTrim w1 (ctcNextBeam blank numClasses r1 ctcInit) ++
              ((sortDesc ctcScore (ctcNextBeam blank numClasses r1 ctcInit)).drop w1).take
                (w2 - w1) := by
          unfold ctcTrim
          have hadd := List.take_add
            (sortDesc ctcScore (ctcNextBeam blank numClasses r1 ctcInit)) w1 (w2 - w1)
          rw [show w1 + (w2 - w1) = w2 by omega] at hadd
          exact hadd
        have hb1ne : ctcTrim w1 (ctcNextBeam blank numClasses r1 ctcInit) ≠ [] :=
          take_ne_nil hw1 hS0
        have hN1 : ctcNextBeam blank numClasses r2
            (ctcTrim w1 (ctcNextBeam blank numClasses r1 ctcInit)) ≠ [] :=
          ctcNextBeam_ne_nil hC hb1ne
        have hb2ne : ctcTrim w2 (ctcNextBeam blank numClasses r1 ctcInit) ≠ [] :=
          take_ne_nil hw2 hS0
        have hN2 : ctcNextBeam blank numClasses r2
            (ctcTrim w2 (ctcNextBeam blank numClasses r1 ctcInit)) ≠ [] :=
          ctcNextBeam_ne_nil hC hb2ne
        obtain ⟨b1, hb1head, hb1mem, _⟩ := ctcTrim_head hw1 hN1
        obtain ⟨b2, hb2head, _, hb2max⟩ := ctcTrim_head hw2 hN2
        -- the middle part consists of nonnegative entries
        have hmidnn : ∀ e ∈ ((sortDesc ctcScore
            (ctcNextBeam blank numClasses r1 ctcInit)).drop w1).take (w2 - w1),
            0 ≤ e.2.1 ∧ 0 ≤ e.2.2 := by
          intro e he
          have h1 : e ∈ sortDesc ctcScore (ctcNextBeam blank numClasses r1 ctcInit) :=
            List.drop_subset _ _ (List.take_subset _ _ he)
          exact hN0nn e ((mem_sortDesc ctcScore).mp h1)
        -- pointwise mass comparison at b1's prefix
        have hle : alGet (ctcNextBeam blank numClasses r2
              (ctcTrim w1 (ctcNextBeam blank numClasses r1 ctcInit))) b1.1 ≤
            alGet (ctcNextBeam blank numClasses r2
              (ctcTrim w2 (ctcNextBeam blank numClasses r1 ctcInit))) b1.1 := by
          rw [hsplit]
          exact ctcNextBeam_alGet_le_append hr2 hmidnn b1.1
        have hval1 : alGet (ctcNextBeam blank numClasses r2
            (ctcTrim w1 (ctcNextBeam blank numClasses r1 ctcInit))) b1.1 = b1.2 :=
          alGet_of_mem alKeys_nodup_ctcNextBeam hb1mem
        -- b1's prefix is also a key of the wide next beam
        have hkey2 : b1.1 ∈ alKeys (ctcNextBeam blank numClasses r2
            (ctcTrim w2 (ctcNextBeam blank numClasses r1 ctcInit))) := by
          have hkey1 : b1.1 ∈ alKeys (ctcNextBeam blank numClasses r2
              (ctcTrim w1 (ctcNextBeam blank numClasses r1 ctcInit))) :=
            List.mem_map_of_mem (fun x => x.1) hb1mem
          rcases mem_alKeys_ctcNextBeam.mp hkey1 with ⟨c, hc, e, he, hwr⟩
          refine mem_alKeys_ctcNextBeam.mpr ⟨c, hc, e, ?_, hwr⟩
          rw [hsplit]
          exact List.mem_append_left _ he
        have hmem2 : (b1.1, alGet (ctcNextBeam blank numClasses r2
            (ctcTrim w2 (ctcNextBeam blank numClasses r1 ctcInit))) b1.1) ∈
            ctcNextBeam blank numClasses r2
              (ctcTrim w2 (ctcNextBeam blank numClasses r1 ctcInit)) :=
          mem_of_key_mem alKeys_nodup_ctcNextBeam hkey2
        have hchain : ctcScore b1 ≤ ctcScore b2 := by
          have h1 : ctcScore b1 = b1.2.1 + b1.2.2 := rfl
          have hle1 : b1.2.1 + b1.2.2 ≤
              (alGet (ctcNextBeam blank numClasses r2
                (ctcTrim w2 (ctcNextBeam blank numClasses r1 ctcInit))) b1.1).1 +
              (alGet (ctcNextBeam blank numClasses r2
                (ctcTrim w2 (ctcNextBeam blank numClasses r1 ctcInit))) b1.1).2 := by
            rw [← hval1]
            rcases Prod.le_def.mp hle with ⟨hfst, hsnd⟩
            exact add_le_add hfst hsnd
          have hle2 : (alGet (ctcNextBeam blank numClasses r2
                (ctcTrim w2 (ctcNextBeam blank numClasses r1 ctcInit))) b1.1).1 +
              (alGet (ctcNextBeam blank numClasses r2
                (ctcTrim w2 (ctcNextBeam blank numClasses r1 ctcInit))) b1.1).2 ≤
              ctcScore b2 :=
            hb2max _ hmem2
          rw [h1]
          exact le_trans hle1 hle2
        refine ⟨ctcScore b1, ctcScore b2, ?_, ?_, hchain⟩
        · show ((ctcTrim w1 (ctcNextBeam blank numClasses r2
            (ctcTrim w1 (ctcNextBeam blank numClasses r1 ctcInit)))).head?).map
              ctcScore = some (ctcScore b1)
          rw [hb1head]
          rfl
        · show ((ctcTrim w2 (ctcNextBeam blank numClasses r2
            (ctcTrim w2 (ctcNextBeam blank numClasses r1 ctcInit)))).head?).map
              ctcScore = some (ctcScore b2)
          rw [hb2head]
          rfl
      · exfalso
        simp only [List.length_cons] at hlen
        omega

/-- Witness for `ctc_beam_monotone_T2` at a concrete one-row matrix. -/
theorem ctc_beam_monotone_T2_witness :
    ∃ s1 s2, ctcTopScore 0 2 [fun _ => (1 : ℚ)/2] 1 = some s1 ∧
      ctcTopScore 0 2 [fun _ => (1 : ℚ)/2] 2 = some s2 ∧ s1 ≤ s2 :=
  ctc_beam_monotone_T2 0 2 [fun _ => 1/2] 1 2 (by norm_num)
    (by
      intro pt hpt c
      rw [List.mem_singleton] at hpt
      subst hpt
      norm_num)
    (by norm_num) (by norm_num) (by norm_num)

/-! ## Claim C2 -/

/-- C2, counterexample.  On a concrete beam search (classes `{0 = START,
1, 2 = END}`, `beam_width = 2`) the returned per-utterance symbol sequence is
`[2]`: it *contains* the END symbol, refuting "the END symbol excluded"
(the source, line 1187, strips only START: `complete[0]['hyp'][1:]`). -/
theorem attn_output_includes_eos_counterexample :
    attnDecodeU stepC2 3 2 2 0 2 0 0 () () = some ([2], [1]) ∧ (2 : ℕ) ∈ [2] := by
  with_unfolding_all decide

/-- C2 (amended): the returned per-utterance pair is the top adjusted-score
completed hypothesis's stored sequence with START excluded (END retained),
together with its attention-weight trace with the initial weights excluded. -/
theorem attn_beam_top_completed {S DO AW : Type}
    (step : S → DO → AW → ℕ → AttnStepOut S DO AW)
    (numClasses w mdl sos eos : ℕ) (lengthPenalty : ℚ) (aw0 : AW) (s0 : S)
    (do0 : DO) (hC : 1 ≤ numClasses) (hw : 1 ≤ w) :
    ∃ best, (attnFinalize lengthPenalty
        (attnCompleteFinal step numClasses w mdl sos eos aw0 s0 do0)).head? =
          some best ∧
      attnDecodeU step numClasses w mdl sos eos lengthPenalty aw0 s0 do0 =
        some (best.hyp.drop 1, best.awSteps.drop 1) ∧
      ∀ h ∈ attnFinalize lengthPenalty
          (attnCompleteFinal step numClasses w mdl sos eos aw0 s0 do0),
        h.score ≤ best.score := by
  have h1 : attnCompleteFinal step numClasses w mdl sos eos aw0 s0 do0 ≠ [] :=
    attnCompleteFinal_ne_nil hC hw
  have h2 : attnAdjust lengthPenalty
      (attnCompleteFinal step numClasses w mdl sos eos aw0 s0 do0) ≠ [] :=
    attnAdjust_ne_nil h1
  rcases hf : attnFinalize lengthPenalty
      (attnCompleteFinal step numClasses w mdl sos eos aw0 s0 do0) with _ | ⟨best, t⟩
  · exfalso
    unfold attnFinalize at hf
    exact h2 ((sortDesc_eq_nil_iff _).mp hf)
  · refine ⟨best, rfl, ?_, ?_⟩
    · unfold attnDecodeU
      rw [hf]
      rfl
    · intro h hmem
      unfold attnFinalize at hf
      have hmem' : h ∈ attnAdjust lengthPenalty
          (attnCompleteFinal step numClasses w mdl sos eos aw0 s0 do0) := by
        rw [← mem_sortDesc (fun h : AttnHyp S DO AW => h.score), hf]
        exact hmem
      exact sortDesc_head_le (fun h : AttnHyp S DO AW => h.score) hf h hmem'

/-- Witness for `attn_beam_top_completed` on the concrete search of the C2
counterexample. -/
theorem attn_beam_top_completed_witness :
    ∃ best, (attnFinalize 0 (attnCompleteFinal stepC2 3 2 2 0 2 0 () ())).head? =
        some best ∧
      attnDecodeU stepC2 3 2 2 0 2 0 0 () () =
        some (best.hyp.drop 1, best.awSteps.drop 1) ∧
      ∀ h ∈ attnFinalize 0 (attnCompleteFinal stepC2 3 2 2 0 2 0 () ()),
        h.score ≤ best.score :=
  attn_beam_top_completed stepC2 3 2 2 0 2 0 0 () () (by norm_num) (by norm_num)

/-! ## Claim C3 -/

/-- C3 (confirmed, on the heap model of `copy.deepcopy`): when one hypothesis
branches into `k` candidates, the stored snapshot addresses are pairwise
distinct fresh cells all holding the copied state value, and an in-place
mutation through one candidate's address is invisible at every sibling's
address. -/
theorem attn_branch_snapshot_isolation {σ : Type} (h : HeapModel.Heap σ)
    (v x : σ) (k i j : ℕ)
    (hi : i ∈ (HeapModel.branchSnapshots h v k).2)
    (hj : j ∈ (HeapModel.branchSnapshots h v k).2) (hij : i ≠ j) :
    ((HeapModel.branchSnapshots h v k).2).Nodup ∧
      HeapModel.read (HeapModel.branchSnapshots h v k).1 j = some v ∧
      HeapModel.read
        (HeapModel.write (HeapModel.branchSnapshots h v k).1 i x) j = some v := by
  rw [HeapModel.branchSnapshots_spec] at hi hj ⊢
  simp only [List.mem_range'_1] at hi hj
  have hread : HeapModel.read (h ++ List.replicate k v) j = some v := by
    unfold HeapModel.read
    rw [List.get?_append_right (by omega)]
    exact HeapModel.replicate_get? v k (j - h.length) (by omega)
  refine ⟨List.nodup_range' _ _, hread, ?_⟩
  rw [HeapModel.read_write_ne _ _ _ _ hij]
  exact hread

/-- Witness for `attn_branch_snapshot_isolation`: two snapshots on an empty
heap, mutating through address 0 and reading through address 1. -/
theorem attn_branch_snapshot_isolation_witness :
    ((HeapModel.branchSnapshots ([] : HeapModel.Heap ℕ) 7 2).2).Nodup ∧
      HeapModel.read (HeapModel.branchSnapshots ([] : HeapModel.Heap ℕ) 7 2).1 1 =
        some 7 ∧
      HeapModel.read (HeapModel.write
        (HeapModel.branchSnapshots ([] : HeapModel.Heap ℕ) 7 2).1 0 9) 1 = some 7 :=
  attn_branch_snapshot_isolation [] 7 9 2 0 1 (by with_unfolding_all decide)
    (by with_unfolding_all decide) (by decide)

/-! ## Claim C4 -/

/-- C4 (confirmed): whenever the backward weight exceeds the forward weight
(so the backward direction is selected) and `beam_width > 1`, the attention
decode raises (`assert bwd_weight > 0` or `raise NotImplementedError`) and
never returns a label sequence. -/
theorem attn_decode_bwd_beam_errors {S DO AW : Type}
    (step : S → DO → AW → ℕ → AttnStepOut S DO AW) (fwdWeight bwdWeight : ℚ)
    (numClasses w mdl sos eos : ℕ) (lengthPenalty : ℚ)
    (inits : List (AW × S × DO)) (greedyResult : List (Option (List ℕ × List AW)))
    (hdir : fwdWeight < bwdWeight) (hw : 1 < w) :
    attentionDecode step fwdWeight bwdWeight numClasses w mdl sos eos
        lengthPenalty inits greedyResult = Except.error "AssertionError" ∨
      attentionDecode step fwdWeight bwdWeight numClasses w mdl sos eos
        lengthPenalty inits greedyResult = Except.error "NotImplementedError" := by
  have hd : ¬ bwdWeight ≤ fwdWeight := not_le.mpr hdir
  have hw1 : ¬ w = 1 := by omega
  by_cases hbw : bwdWeight ≤ 0
  · left
    simp [attentionDecode, decodeInferBeam, hd, hw1, hbw]
  · right
    simp [attentionDecode, decodeInferBeam, hd, hw1, hbw]

/-- Witness for `attn_decode_bwd_beam_errors` at a concrete backward-dominant
configuration with `beam_width = 2`. -/
theorem attn_decode_bwd_beam_errors_witness :
    attentionDecode stepC2 0 1 3 2 1 0 2 0 [] [] = Except.error "AssertionError" ∨
      attentionDecode stepC2 0 1 3 2 1 0 2 0 [] [] =
        Except.error "NotImplementedError" :=
  attn_decode_bwd_beam_errors stepC2 0 1 3 2 1 0 2 0 [] [] (by norm_num) (by norm_num)
